import Mathlib

/-
Verification of the decay-chain generator (decay-gen.py).

The script enumerates radioactive decay chains, solves the Bateman
coefficients for each chain, and emits closed-form exponential expressions.
Machine doubles are modelled exactly: an extended rational with IEEE-style
positive/negative infinity and NaN special values (EF below).  The numpy
operations used by the script (elementwise arithmetic, isnan/isinf, boolean
masking, reductions) are translated to list operations over EF.
-/

namespace DecayGen

/-- An IEEE-double-like value: exact rational, +inf, -inf, or NaN.
Signed zero is collapsed to 0 (the script never divides by a negative zero). -/
inductive EF where
  | fin : ℚ → EF
  | pinf : EF
  | ninf : EF
  | nan : EF
deriving DecidableEq

namespace EF

def isNaN : EF → Bool
  | nan => true
  | _ => false

def isInf : EF → Bool
  | pinf => true
  | ninf => true
  | _ => false

def neg : EF → EF
  | fin q => fin (-q)
  | pinf => ninf
  | ninf => pinf
  | nan => nan

def add : EF → EF → EF
  | nan, _ => nan
  | _, nan => nan
  | fin a, fin b => fin (a + b)
  | fin _, pinf => pinf
  | fin _, ninf => ninf
  | pinf, fin _ => pinf
  | ninf, fin _ => ninf
  | pinf, pinf => pinf
  | ninf, ninf => ninf
  | pinf, ninf => nan
  | ninf, pinf => nan

def sub (a b : EF) : EF := add a (neg b)

def mul : EF → EF → EF
  | nan, _ => nan
  | _, nan => nan
  | fin a, fin b => fin (a * b)
  | fin a, pinf => if 0 < a then pinf else if a < 0 then ninf else nan
  | fin a, ninf => if 0 < a then ninf else if a < 0 then pinf else nan
  | pinf, fin b => if 0 < b then pinf else if b < 0 then ninf else nan
  | ninf, fin b => if 0 < b then ninf else if b < 0 then pinf else nan
  | pinf, pinf => pinf
  | pinf, ninf => ninf
  | ninf, pinf => ninf
  | ninf, ninf => pinf

def div : EF → EF → EF
  | nan, _ => nan
  | _, nan => nan
  | fin a, fin b =>
      if b = 0 then (if 0 < a then pinf else if a < 0 then ninf else nan)
      else fin (a / b)
  | fin _, pinf => fin 0
  | fin _, ninf => fin 0
  | pinf, fin b => if b < 0 then ninf else pinf
  | ninf, fin b => if b < 0 then pinf else ninf
  | pinf, pinf => nan
  | pinf, ninf => nan
  | ninf, pinf => nan
  | ninf, ninf => nan

/-- IEEE equality test: NaN is equal to nothing, including itself. -/
def eqb : EF → EF → Bool
  | fin a, fin b => decide (a = b)
  | pinf, pinf => true
  | ninf, ninf => true
  | _, _ => false

/-- IEEE less-than: any comparison involving NaN is false. -/
def ltb : EF → EF → Bool
  | nan, _ => false
  | _, nan => false
  | fin a, fin b => decide (a < b)
  | fin _, pinf => true
  | fin _, ninf => false
  | pinf, fin _ => false
  | ninf, fin _ => true
  | pinf, pinf => false
  | ninf, ninf => false
  | ninf, pinf => true
  | pinf, ninf => false

end EF

/-- Nuclide identity: the integer id used throughout decay-gen.py. -/
abbrev Nuc := Nat

/-- A decay chain: an ordered sequence of nuclide ids (a Python tuple). -/
abbrev Chain := List Nuc

/-- The external nuclear-data provider (pyne.data), a collection of query
functions.  half_life and decay_const may return NaN for
unmeasured species; fpyield returns 0 for non-fission pairs.
branching0 and children0 are the provider's branch_ratio and decay_children
before the script wraps them with its override tables. -/
structure Data where
  half_life : Nuc → EF
  decay_const : Nuc → EF
  branching0 : Nuc → Nuc → EF
  children0 : Nuc → List Nuc
  fpyield : Nuc → Nuc → EF

/-- The special_cases dict of _branch_ratio: (parent, child) pairs with a
corrected branching probability (decimal float literals read as exact
rationals). -/
def brSpecial : List ((Nuc × Nuc) × EF) :=
  [((451040000, 461040000), EF.fin 0.9955),
   ((451040000, 441040000), EF.fin 0.0045),
   ((521270000, 531270000), EF.fin 1.0),
   ((471100001, 471100000), EF.fin (1.0 - 0.9867)),
   ((491190001, 491190000), EF.fin (1.0 - 0.956)),
   ((511260001, 511260000), EF.fin 0.14),
   ((320770001, 320770000), EF.fin 0.19),
   ((360850001, 360850000), EF.fin (1.0 - 0.788)),
   ((711770001, 711770000), EF.fin 0.217),
   ((461110001, 461110000), EF.fin 0.73),
   ((842110001, 842110000), EF.fin 0.0002),
   ((521290001, 531290000), EF.fin 0.63)]

/-- The wrapped branch_ratio (module-level rebinding in decay-gen.py):
consult the override table on the exact pair, otherwise delegate to the
provider. -/
def branching (d : Data) (x y : Nuc) : EF :=
  match brSpecial.lookup (x, y) with
  | some v => v
  | none => d.branching0 x y

/-- The special_cases dict of _decay_children (sets listed in ascending
order). -/
def childSpecial : List (Nuc × List Nuc) :=
  [(451040000, [441040000, 461040000]),
   (521270000, [531270000])]

/-- The wrapped decay_children: consult the override table on the parent,
otherwise delegate to the provider. -/
def decay_children (d : Data) (x : Nuc) : List Nuc :=
  match childSpecial.lookup x with
  | some s => s
  | none => d.children0 x

/-- genchains' filter of the daughter set: keep a child only when its
fission-product yield from the current terminal nuclide is exactly 0.0
(IEEE equality, so a NaN yield also keeps the child). -/
def filteredChildren (d : Data) (n : Nuc) : List Nuc :=
  (decay_children d n).filter (fun c => EF.eqb (EF.fin 0) (d.fpyield n c))

/-- One iteration of genchains' for-loop over the filtered children:
append the extended chain and recurse (g is the recursive call one fuel
level down); a none accumulator (fuel exhausted inside the loop)
propagates. -/
def genStep (g : List Chain → Option (List Chain)) (chain : Chain)
    (acc : Option (List Chain)) (c : Nuc) : Option (List Chain) :=
  acc.bind (fun cs => g (cs ++ [chain ++ [c]]))

/-- The body of genchains: look at the last chain, take its last nuclide's
filtered children, and fold the loop over them.  An empty chains list or an
empty chain is a Python IndexError, modelled as none. -/
def genBody (d : Data) (g : List Chain → Option (List Chain))
    (chains : List Chain) : Option (List Chain) :=
  match chains.getLast? with
  | none => none
  | some chain =>
    match chain.getLast? with
    | none => none
    | some n => (filteredChildren d n).foldl (genStep g chain) (some chains)

/-- genchains with explicit fuel: the Python function is recursive with no
termination guard, so nontermination is modelled as none for every fuel.
Defined by bare Nat.rec so that it reduces definitionally. -/
def genchainsF (d : Data) (fuel : Nat) : List Chain → Option (List Chain) :=
  Nat.rec (motive := fun _ => List Chain → Option (List Chain))
    (fun _ => none) (fun _ g => genBody d g) fuel

/-- hl: the per-chain half-life array of k_a. -/
def hlOf (d : Data) (chain : Chain) : List EF := chain.map d.half_life

/-- a = -1.0 / hl: the rate array of k_a (note: reciprocal half-life, the
emitted expressions use the base-2 exponential exp2). -/
def aOf (d : Data) (chain : Chain) : List EF :=
  (hlOf d chain).map (fun h => EF.div (EF.fin (-1)) h)

/-- dc: the per-chain decay-constant array of k_a. -/
def dcOf (d : Data) (chain : Chain) : List EF := chain.map d.decay_const

/-- ends_stable = (dc[-1] < 1e-16): the last nuclide counts as stable when
its decay constant is below the stability threshold. -/
def endsStable (d : Data) (chain : Chain) : Bool :=
  EF.ltb ((dcOf d chain).getLastD EF.nan) (EF.fin (1 / 10 ^ 16))

/-- Entry (i, j) of the cij matrix after the three assignments of k_a:
cij = dc[:,None] / (dc[:,None] - dc), then (if stable) cij[-1] = -1/dc,
then the diagonal is set to 1.0 (the diagonal assignment comes last, so it
wins over the stable-row assignment at (n-1, n-1)). -/
def cijEntry (dc : List EF) (stable : Bool) (n i j : Nat) : EF :=
  if i = j then EF.fin 1
  else if stable = true ∧ i = n - 1 then
    EF.div (EF.fin (-1)) (dc.getD j EF.nan)
  else
    EF.div (dc.getD i EF.nan) (EF.sub (dc.getD i EF.nan) (dc.getD j EF.nan))

/-- ci = cij.prod(axis=0): the product runs over the row index i, giving
for each column j the product of column j's entries. -/
def ciOf (dc : List EF) (stable : Bool) : List EF :=
  (List.range dc.length).map (fun j =>
    ((List.range dc.length).map (fun i => cijEntry dc stable dc.length i j)).foldl
      EF.mul (EF.fin 1))

/-- k before branch-ratio scaling: k = dc * ci with k[-1] forced to 1.0 in
the stable case, else k = (dc / dc[-1]) * ci. -/
def kOf (d : Data) (chain : Chain) : List EF :=
  if endsStable d chain then
    (List.zipWith EF.mul (dcOf d chain) (ciOf (dcOf d chain) (endsStable d chain))).set
      ((dcOf d chain).length - 1) (EF.fin 1)
  else
    List.zipWith (fun x y => EF.mul (EF.div x ((dcOf d chain).getLastD EF.nan)) y)
      (dcOf d chain) (ciOf (dcOf d chain) (endsStable d chain))

/-- gamma = np.prod of the branch ratios along consecutive chain pairs
(the empty product, for a length-1 chain, is 1.0). -/
def gammaOf (d : Data) (chain : Chain) : EF :=
  ((chain.zip chain.tail).map (fun pc => branching d pc.1 pc.2)).foldl
    EF.mul (EF.fin 1)

/-- The half-life pruning mask before the minimum-survivor check:
(hl / hl.sum()) > 1e-8, with the terminal entry pinned to True when the
chain ends stable (the comparison is then taken over hl[:-1]). -/
def maskRaw (d : Data) (chain : Chain) : List Bool :=
  if endsStable d chain then
    ((hlOf d chain).dropLast.map (fun h =>
      EF.ltb (EF.fin (1 / 10 ^ 8))
        (EF.div h ((hlOf d chain).dropLast.foldl EF.add (EF.fin 0))))) ++ [true]
  else
    (hlOf d chain).map (fun h =>
      EF.ltb (EF.fin (1 / 10 ^ 8)) (EF.div h ((hlOf d chain).foldl EF.add (EF.fin 0))))

/-- The final mask: if fewer than 2 entries survive, fall back to the full
(all-True) mask. -/
def maskOf (d : Data) (chain : Chain) : List Bool :=
  if (maskRaw d chain).count true < 2 then List.replicate chain.length true
  else maskRaw d chain

/-- numpy boolean indexing l[mask]: keep the entries at True positions. -/
def selectMask (l : List EF) (m : List Bool) : List EF :=
  ((l.zip m).filter (fun xb => xb.2)).map Prod.fst

/-- k_a: the Bateman coefficient solver.  Returns none (the Python
(None, None) sentinel) when a decay constant is NaN, an amplitude is
infinite, or the aggregate branch ratio is exactly zero; otherwise the
mask-filtered amplitude and rate arrays.  An empty chain is a Python
IndexError, modelled as none. -/
def k_a (d : Data) (chain : Chain) : Option (List EF × List EF) :=
  if chain.isEmpty then none
  else if (dcOf d chain).any EF.isNaN then none
  else if (kOf d chain).any EF.isInf then none
  else if EF.eqb (gammaOf d chain) (EF.fin 0) then none
  else
    some (selectMask ((kOf d chain).map (fun x => EF.mul x (gammaOf d chain)))
            (maskOf d chain),
          selectMask (aOf d chain) (maskOf d chain))

/-- A synthesized textual term: the literal '1.0', 'exp2(a*t)' (EXP_EXPR),
or 'k*exp2(a*t)' (KEXP_EXPR); the numeric formatting of k and a is kept
abstract. -/
inductive CTerm where
  | one : CTerm
  | expT : EF → CTerm
  | kexpT : EF → EF → CTerm
deriving DecidableEq

/-- kexpexpr: EXP_EXPR when k == 1.0 (IEEE equality), else KEXP_EXPR. -/
def kexpexpr (k a : EF) : CTerm :=
  if EF.eqb k (EF.fin 1) then CTerm.expT a else CTerm.kexpT k a

/-- chainexpr: the terms of a chain's expression (the surrounding
CHAIN_EXPR wrapper "(it->second) * (sum of terms)" is common to all).
A length-1 chain gets the single term exp2((-1/half_life)*t); otherwise the
k_a terms, with the (k == 1.0 and a == 0.0) pair collapsed to '1.0'.
Returns none when k_a is unsolvable. -/
def chainexpr (d : Data) (chain : Chain) : Option (List CTerm) :=
  match chain.getLast? with
  | none => none
  | some child =>
    if chain.length = 1 then
      some [CTerm.expT (EF.div (EF.fin (-1)) (d.half_life child))]
    else
      match k_a d chain with
      | none => none
      | some ka =>
        some ((ka.1.zip ka.2).map (fun p =>
          if EF.eqb p.1 (EF.fin 1) && EF.eqb p.2 (EF.fin 0) then CTerm.one
          else kexpexpr p.1 p.2))

/-- The claim's version of the coefficient extraction: for each index i the
product over ROW i of the cij matrix, excluding the diagonal. -/
def ciRowSpec (dc : List EF) (stable : Bool) : List EF :=
  (List.range dc.length).map (fun i =>
    (((List.range dc.length).filter (fun j => decide (j ≠ i))).map
      (fun j => cijEntry dc stable dc.length i j)).foldl EF.mul (EF.fin 1))

/- The decay graph traversed by genchains. -/

/-- The edge relation of the filtered decay graph: y is a decay child of x
surviving the fission-yield filter. -/
def fchildRel (d : Data) (x y : Nuc) : Prop := y ∈ filteredChildren d x

/-- A chain is properly extended: the new chain is the base plus a nonempty
tail. -/
def properExt (base ch : Chain) : Prop := ∃ e, e ≠ [] ∧ ch = base ++ e

/- Concrete data providers used as witnesses and counterexamples. -/

/-- A two-species provider: nuclide 1 decays (half-life 1, decay constant
0.7) into the stable nuclide 2 (infinite half-life, decay constant 0). -/
def dW : Data where
  half_life := fun n => if n = 1 then EF.fin 1 else if n = 2 then EF.pinf else EF.nan
  decay_const := fun n => if n = 1 then EF.fin (7 / 10) else if n = 2 then EF.fin 0 else EF.nan
  branching0 := fun _ _ => EF.fin 1
  children0 := fun n => if n = 1 then [2] else []
  fpyield := fun _ _ => EF.fin 0

/-- A two-species provider with two genuinely decaying nuclides:
half-lives 1 and 2, decay constants 0.7 and 0.35. -/
def dC3 : Data where
  half_life := fun n => if n = 1 then EF.fin 1 else if n = 2 then EF.fin 2 else EF.nan
  decay_const := fun n =>
    if n = 1 then EF.fin (7 / 10) else if n = 2 then EF.fin (7 / 20) else EF.nan
  branching0 := fun _ _ => EF.fin 1
  children0 := fun _ => []
  fpyield := fun _ _ => EF.fin 0

/-- A provider whose nuclide 1 has an unmeasured (NaN) decay constant. -/
def dNaN : Data where
  half_life := fun _ => EF.nan
  decay_const := fun _ => EF.nan
  branching0 := fun _ _ => EF.fin 1
  children0 := fun _ => []
  fpyield := fun _ _ => EF.fin 0

/-- A sentinel provider: every provider answer is a recognizable dummy. -/
def dSent : Data where
  half_life := fun _ => EF.fin 12345
  decay_const := fun _ => EF.fin 12345
  branching0 := fun _ _ => EF.fin 12345
  children0 := fun _ => [999]
  fpyield := fun _ _ => EF.fin 12345
/-- A provider with a decay cycle 1 -> 2 -> 1 that survives the
fission-yield filter. -/
def dCyc : Data where
  half_life := fun _ => EF.fin 1
  decay_const := fun _ => EF.fin 1
  branching0 := fun _ _ => EF.fin 1
  children0 := fun n => if n = 1 then [2] else if n = 2 then [1] else []
  fpyield := fun _ _ => EF.fin 0

theorem genchainsF_zero (d : Data) (chains : List Chain) :
    genchainsF d 0 chains = none := rfl

theorem genchainsF_succ (d : Data) (f : Nat) (chains : List Chain) :
    genchainsF d (f + 1) chains = genBody d (genchainsF d f) chains := rfl

/- Helper lemmas about the list plumbing of k_a. -/

theorem EF.ef_mul_one (x : EF) : EF.mul x (EF.fin 1) = x := by
  cases x <;> simp [EF.mul]

theorem EF.ef_one_mul (x : EF) : EF.mul (EF.fin 1) x = x := by
  cases x <;> simp [EF.mul]

theorem EF.ef_zero_add (x : EF) : EF.add (EF.fin 0) x = x := by
  cases x <;> simp [EF.add]


theorem selectMask_cons (x : EF) (l : List EF) (b : Bool) (m : List Bool) :
    selectMask (x :: l) (b :: m) =
      if b then x :: selectMask l m else selectMask l m := by
  by_cases hb : b <;> simp [selectMask, hb]

theorem selectMask_sublist (l : List EF) (m : List Bool) :
    List.Sublist (selectMask l m) l := by
  induction l generalizing m with
  | nil => simp [selectMask]
  | cons x l ih =>
    cases m with
    | nil => simp [selectMask]
    | cons b m =>
      rw [selectMask_cons]
      by_cases hb : b
      · simpa [hb] using (ih m).cons₂ x
      · simpa [hb] using (ih m).cons x

theorem selectMask_length (l : List EF) (m : List Bool) (h : l.length = m.length) :
    (selectMask l m).length = m.count true := by
  induction l generalizing m with
  | nil =>
    cases m with
    | nil => simp [selectMask]
    | cons b m => simp at h
  | cons x l ih =>
    cases m with
    | nil => simp at h
    | cons b m =>
      have h' : l.length = m.length := by simpa using h
      rw [selectMask_cons]
      by_cases hb : b <;> simp [hb, ih m h', List.count_cons]

theorem selectMask_all (l : List EF) :
    selectMask l (List.replicate l.length true) = l := by
  induction l with
  | nil => simp [selectMask]
  | cons x l ih => simpa [List.replicate_succ, selectMask_cons] using ih

theorem selectMask_getLast (l : List EF) (m : List Bool) (h : l.length = m.length)
    (hm : m.getLast? = some true) :
    (selectMask l m).getLast? = l.getLast? := by
  induction l generalizing m with
  | nil =>
    cases m with
    | nil => rfl
    | cons b m => simp at h
  | cons x l ih =>
    cases m with
    | nil => simp at h
    | cons b m =>
      have h' : l.length = m.length := by simpa using h
      cases l with
      | nil =>
        have hm0 : m = [] := by simpa using h'.symm
        subst hm0
        have hb : b = true := by simpa using hm
        subst hb
        simp [selectMask]
      | cons y t =>
        have hmne : m ≠ [] := by
          intro h0; subst h0; simp at h'
        obtain ⟨b2, m2, rfl⟩ : ∃ b2 m2, m = b2 :: m2 := by
          cases m with
          | nil => exact absurd rfl hmne
          | cons b2 m2 => exact ⟨b2, m2, rfl⟩
        have hm' : (b2 :: m2).getLast? = some true := by
          simpa [List.getLast?_cons_cons] using hm
        have hrec := ih (b2 :: m2) h' hm'
        have hne2 : (selectMask (y :: t) (b2 :: m2)).getLast?.isSome := by
          rw [hrec]
          simp [List.getLast?_cons_cons]
        rw [selectMask_cons]
        by_cases hb : b = true
        · rw [if_pos hb]
          obtain ⟨z, s, hzs⟩ : ∃ z s, selectMask (y :: t) (b2 :: m2) = z :: s := by
            cases hsel : selectMask (y :: t) (b2 :: m2) with
            | nil => rw [hsel] at hne2; simp at hne2
            | cons z s => exact ⟨z, s, rfl⟩
          rw [hzs, List.getLast?_cons_cons, ← hzs, hrec, List.getLast?_cons_cons]
        · rw [if_neg hb, hrec, List.getLast?_cons_cons]

theorem getLast?_set_last {α : Type} (l : List α) (x : α) (h : l ≠ []) :
    (l.set (l.length - 1) x).getLast? = some x := by
  induction l with
  | nil => exact absurd rfl h
  | cons a l ih =>
    cases l with
    | nil => rfl
    | cons b t =>
      have harith : (a :: b :: t).length - 1 = (b :: t).length - 1 + 1 := by
        simp
      rw [harith, List.set_cons_succ]
      have hrec := ih (by simp)
      cases hset : (b :: t).set ((b :: t).length - 1) x with
      | nil => rw [hset] at hrec; simp at hrec
      | cons z s =>
        rw [List.getLast?_cons_cons, ← hset]
        exact hrec

theorem foldl_mul_filter (l : List Nat) (f : Nat → EF) (i : Nat)
    (hf : ∀ j ∈ l, j = i → f j = EF.fin 1) (acc : EF) :
    ((l.filter (fun j => decide (j ≠ i))).map f).foldl EF.mul acc =
      (l.map f).foldl EF.mul acc := by
  induction l generalizing acc with
  | nil => rfl
  | cons j l ih =>
    by_cases hj : j = i
    · have h1 : f j = EF.fin 1 := hf j (List.mem_cons_self j l) hj
      have hdec : decide (j ≠ i) = false := by simp [hj]
      rw [List.filter_cons, hdec]
      simp only [Bool.false_eq_true, if_false, List.map_cons, List.foldl_cons, h1,
        EF.ef_mul_one]
      exact ih (fun a ha hai => hf a (List.mem_cons_of_mem j ha) hai) acc
    · have hdec : decide (j ≠ i) = true := by simp [hj]
      rw [List.filter_cons, hdec]
      simp only [if_true, List.map_cons, List.foldl_cons]
      exact ih (fun a ha hai => hf a (List.mem_cons_of_mem j ha) hai) (EF.mul acc (f j))

theorem hlOf_length (d : Data) (chain : Chain) : (hlOf d chain).length = chain.length := by
  simp [hlOf]

theorem dcOf_length (d : Data) (chain : Chain) : (dcOf d chain).length = chain.length := by
  simp [dcOf]

theorem aOf_length (d : Data) (chain : Chain) : (aOf d chain).length = chain.length := by
  simp [aOf, hlOf]

theorem ciOf_length (dc : List EF) (stable : Bool) : (ciOf dc stable).length = dc.length := by
  simp [ciOf]

theorem kOf_length (d : Data) (chain : Chain) : (kOf d chain).length = chain.length := by
  unfold kOf
  split <;> simp [ciOf_length, dcOf_length]

theorem maskRaw_length (d : Data) (chain : Chain) (h : chain ≠ []) :
    (maskRaw d chain).length = chain.length := by
  have hpos : 0 < chain.length := List.length_pos.mpr h
  unfold maskRaw
  split <;> simp [hlOf]
  omega

theorem maskOf_length (d : Data) (chain : Chain) (h : chain ≠ []) :
    (maskOf d chain).length = chain.length := by
  unfold maskOf
  split
  · simp
  · exact maskRaw_length d chain h

theorem maskOf_getLast_stable (d : Data) (chain : Chain) (h : chain ≠ [])
    (hs : endsStable d chain = true) : (maskOf d chain).getLast? = some true := by
  have hpos : chain.length ≠ 0 := fun h0 => h (List.length_eq_zero.mp h0)
  unfold maskOf
  split
  · simp [List.getLast?_replicate, hpos]
  · unfold maskRaw
    rw [hs]
    simp only [if_true, List.getLast?_concat]

theorem kOf_getLast_stable (d : Data) (chain : Chain) (h : chain ≠ [])
    (hs : endsStable d chain = true) : (kOf d chain).getLast? = some (EF.fin 1) := by
  unfold kOf
  rw [hs]
  simp only [if_true]
  have hlen : (List.zipWith EF.mul (dcOf d chain)
      (ciOf (dcOf d chain) true)).length = (dcOf d chain).length := by
    simp [ciOf_length]
  rw [← hlen]
  apply getLast?_set_last
  intro h0
  rw [h0] at hlen
  simp only [List.length_nil, dcOf_length] at hlen
  exact h (List.length_eq_zero.mp hlen.symm)

theorem genchainsF_succ_eq (d : Data) (f : Nat) (chains : List Chain) (chain : Chain)
    (n : Nuc) (hlast : chains.getLast? = some chain) (hcl : chain.getLast? = some n) :
    genchainsF d (f + 1) chains =
      (filteredChildren d n).foldl (genStep (genchainsF d f) chain) (some chains) := by
  rw [genchainsF_succ]
  unfold genBody
  rw [hlast]
  show (match chain.getLast? with
    | none => none
    | some m => (filteredChildren d m).foldl (genStep (genchainsF d f) chain)
        (some chains)) = _
  rw [hcl]

theorem genchainsF_succ_none (d : Data) (f : Nat) (chains : List Chain) (chain : Chain)
    (hlast : chains.getLast? = some chain) (hcl : chain.getLast? = none) :
    genchainsF d (f + 1) chains = none := by
  rw [genchainsF_succ]
  unfold genBody
  rw [hlast]
  show (match chain.getLast? with
    | none => none
    | some m => (filteredChildren d m).foldl (genStep (genchainsF d f) chain)
        (some chains)) = _
  rw [hcl]

theorem fold_none (g : List Chain → Option (List Chain)) (chain : Chain)
    (cs : List Nuc) : cs.foldl (genStep g chain) none = none := by
  induction cs with
  | nil => rfl
  | cons c cs ih => rw [List.foldl_cons]; exact ih

theorem fold_some_mem (g : List Chain → Option (List Chain)) (chain : Chain) :
    ∀ (cs : List Nuc) (chs out : List Chain),
      cs.foldl (genStep g chain) (some chs) = some out →
      ∀ c ∈ cs, ∃ chs2 mid, g (chs2 ++ [chain ++ [c]]) = some mid := by
  intro cs
  induction cs with
  | nil =>
    intro chs out _ c hc
    simp at hc
  | cons c0 cs ih =>
    intro chs out h c hc
    rw [List.foldl_cons] at h
    cases hg : g (chs ++ [chain ++ [c0]]) with
    | none =>
      rw [show genStep g chain (some chs) c0 = none by simp [genStep, hg]] at h
      rw [fold_none] at h
      exact absurd h (by simp)
    | some mid =>
      rw [show genStep g chain (some chs) c0 = some mid by simp [genStep, hg]] at h
      rcases List.mem_cons.mp hc with rfl | hmem
      · exact ⟨chs, mid, hg⟩
      · exact ih mid out h c hmem

/-- Shape of a successful run: the input chains are kept verbatim as a
prefix and every new chain properly extends the last input chain. -/
theorem genchainsF_shape (d : Data) :
    ∀ (f : Nat) (chains : List Chain) (chain : Chain) (out : List Chain),
      chains.getLast? = some chain → genchainsF d f chains = some out →
      ∃ news, out = chains ++ news ∧ ∀ ch ∈ news, properExt chain ch := by
  intro f
  induction f with
  | zero =>
    intro chains chain out _ h
    rw [genchainsF_zero] at h
    exact absurd h (by simp)
  | succ f ihf =>
    intro chains chain out hlast h
    cases hcl : chain.getLast? with
    | none =>
      rw [genchainsF_succ_none d f chains chain hlast hcl] at h
      exact absurd h (by simp)
    | some n =>
      rw [genchainsF_succ_eq d f chains chain n hlast hcl] at h
      suffices hfold : ∀ (cs : List Nuc) (chs : List Chain),
          (∃ news0, chs = chains ++ news0 ∧ ∀ ch ∈ news0, properExt chain ch) →
          cs.foldl (genStep (genchainsF d f) chain) (some chs) = some out →
          ∃ news, out = chains ++ news ∧ ∀ ch ∈ news, properExt chain ch by
        exact hfold (filteredChildren d n) chains ⟨[], by simp⟩ h
      intro cs
      induction cs with
      | nil =>
        intro chs hinv hfold
        simp only [List.foldl_nil, Option.some.injEq] at hfold
        rw [← hfold]
        exact hinv
      | cons c cs ihcs =>
        intro chs hinv hfold
        rw [List.foldl_cons] at hfold
        cases hg : genchainsF d f (chs ++ [chain ++ [c]]) with
        | none =>
          rw [show genStep (genchainsF d f) chain (some chs) c = none by
            simp [genStep, hg]] at hfold
          rw [fold_none] at hfold
          exact absurd hfold (by simp)
        | some mid =>
          rw [show genStep (genchainsF d f) chain (some chs) c = some mid by
            simp [genStep, hg]] at hfold
          obtain ⟨news2, hmid, hnews2⟩ :=
            ihf (chs ++ [chain ++ [c]]) (chain ++ [c]) mid (List.getLast?_concat _) hg
          obtain ⟨news0, hchs, hnews0⟩ := hinv
          refine ihcs mid ⟨news0 ++ ([chain ++ [c]] ++ news2), ?_, ?_⟩ hfold
          · rw [hmid, hchs]
            simp [List.append_assoc]
          · intro ch hch
            rcases List.mem_append.mp hch with h1 | h2
            · exact hnews0 ch h1
            · rcases List.mem_append.mp h2 with h3 | h4
              · have hch1 : ch = chain ++ [c] := by simpa using h3
                exact ⟨[c], by simp, hch1⟩
              · obtain ⟨e, hene, hche⟩ := hnews2 ch h4
                exact ⟨[c] ++ e, by simp, by rw [hche]; simp⟩

/-- A successful run bounds the filtered-graph paths from the terminal
nuclide of the last chain: every path is shorter than the fuel.  (This is
the formal content of termination: an unbounded path forces the recursion
to diverge.) -/
theorem genchainsF_depth_bound (d : Data) :
    ∀ (f : Nat) (chains : List Chain) (chain : Chain) (n : Nuc) (out : List Chain),
      genchainsF d f chains = some out →
      chains.getLast? = some chain → chain.getLast? = some n →
      ∀ p, List.Chain' (fchildRel d) (n :: p) → p.length < f := by
  intro f
  induction f with
  | zero =>
    intro chains chain n out h _ _
    rw [genchainsF_zero] at h
    exact absurd h (by simp)
  | succ f ihf =>
    intro chains chain n out h hlast hcl p hp
    cases p with
    | nil => simp
    | cons c q =>
      rw [genchainsF_succ_eq d f chains chain n hlast hcl] at h
      have hrel := List.chain'_cons.mp hp
      obtain ⟨chs2, mid, hmid⟩ :=
        fold_some_mem (genchainsF d f) chain (filteredChildren d n) chains out h c hrel.1
      have hq := ihf (chs2 ++ [chain ++ [c]]) (chain ++ [c]) c mid hmid
        (List.getLast?_concat _) (List.getLast?_concat _) q hrel.2
      simpa using Nat.succ_lt_succ hq

/-- If every filtered-graph path from the terminal nuclide is shorter than
the fuel, the run succeeds. -/
theorem genchainsF_total (d : Data) :
    ∀ (f : Nat) (chains : List Chain) (chain : Chain) (n : Nuc),
      chains.getLast? = some chain → chain.getLast? = some n →
      (∀ p, List.Chain' (fchildRel d) (n :: p) → p.length < f) →
      ∃ out, genchainsF d f chains = some out := by
  intro f
  induction f with
  | zero =>
    intro chains chain n _ _ hb
    have h0 := hb [] (List.chain'_singleton n)
    simp at h0
  | succ f ihf =>
    intro chains chain n hlast hcl hb
    rw [genchainsF_succ_eq d f chains chain n hlast hcl]
    suffices hfold : ∀ (cs : List Nuc), (∀ c ∈ cs, fchildRel d n c) →
        ∀ chs, ∃ out, cs.foldl (genStep (genchainsF d f) chain) (some chs) = some out by
      exact hfold (filteredChildren d n) (fun c hc => hc) chains
    intro cs
    induction cs with
    | nil => exact fun _ chs => ⟨chs, rfl⟩
    | cons c cs ihcs =>
      intro hsub chs
      have hbc : ∀ p, List.Chain' (fchildRel d) (c :: p) → p.length < f := by
        intro p hp
        have hnp : List.Chain' (fchildRel d) (n :: c :: p) :=
          List.chain'_cons.mpr ⟨hsub c (List.mem_cons_self c cs), hp⟩
        have hlt := hb (c :: p) hnp
        simpa using hlt
      obtain ⟨mid, hmid⟩ := ihf (chs ++ [chain ++ [c]]) (chain ++ [c]) c
        (List.getLast?_concat _) (List.getLast?_concat _) hbc
      rw [List.foldl_cons, show genStep (genchainsF d f) chain (some chs) c = some mid by
        simp [genStep, hmid]]
      exact ihcs (fun c2 hc2 => hsub c2 (List.mem_cons_of_mem c hc2)) mid

/-- A cycle through c yields filtered-graph paths from c of every length. -/
theorem cycle_pump (R : Nuc → Nuc → Prop) (c : Nuc) (p : List Nuc)
    (hp : List.Chain' R (c :: p)) (hlast : p.getLast? = some c) :
    ∀ k, ∃ q, List.Chain' R (c :: q) ∧ k ≤ q.length := by
  have hpne : p ≠ [] := by
    intro h0
    rw [h0] at hlast
    simp at hlast
  intro k
  induction k with
  | zero => exact ⟨[], List.chain'_singleton c, by simp⟩
  | succ k ih =>
    obtain ⟨q, hq, hk⟩ := ih
    refine ⟨p ++ q, ?_, ?_⟩
    · have hrw : c :: (p ++ q) = (c :: p) ++ q := by simp
      rw [hrw]
      apply List.Chain'.append hp hq.tail
      intro x hx y hy
      have hx' : x = c := by
        have h1 : (c :: p).getLast? = some c := by
          cases p with
          | nil => exact absurd rfl hpne
          | cons b t => rw [List.getLast?_cons_cons]; exact hlast
        rw [h1] at hx
        exact (by simpa using hx : c = x).symm
      subst hx'
      cases q with
      | nil => simp at hy
      | cons y0 t =>
        have hy' : y = y0 := (by simpa using hy : y0 = y).symm
        subst hy'
        exact List.Chain'.rel_head hq
      -- hq : Chain' R (c :: y0 :: t) gives R c y0
    · have h1 : 1 ≤ p.length := List.length_pos.mpr hpne
      simp only [List.length_append]
      omega

/-- Invariant behind the no-repeat property: on a successful run whose last
input chain is a duplicate-free walk of the filtered graph, every output
chain is an input chain or is itself a duplicate-free walk.  A repeated
nuclide would close a cycle, pump to unbounded paths, and contradict the
depth bound of the successful run. -/
theorem genchainsF_nodup_aux (d : Data) :
    ∀ (f : Nat) (chains : List Chain) (chain : Chain) (out : List Chain),
      chains.getLast? = some chain →
      List.Chain' (fchildRel d) chain → chain.Nodup →
      genchainsF d f chains = some out →
      ∀ ch ∈ out, ch ∈ chains ∨ (List.Chain' (fchildRel d) ch ∧ ch.Nodup) := by
  intro f
  induction f with
  | zero =>
    intro chains chain out _ _ _ h
    rw [genchainsF_zero] at h
    exact absurd h (by simp)
  | succ f ihf =>
    intro chains chain out hlast hwalk hnd h
    cases hcl : chain.getLast? with
    | none =>
      rw [genchainsF_succ_none d f chains chain hlast hcl] at h
      exact absurd h (by simp)
    | some n =>
      rw [genchainsF_succ_eq d f chains chain n hlast hcl] at h
      suffices hfold : ∀ (cs : List Nuc), (∀ c ∈ cs, fchildRel d n c) →
          ∀ (chs : List Chain),
            (∀ ch ∈ chs, ch ∈ chains ∨ (List.Chain' (fchildRel d) ch ∧ ch.Nodup)) →
            cs.foldl (genStep (genchainsF d f) chain) (some chs) = some out →
            ∀ ch ∈ out, ch ∈ chains ∨ (List.Chain' (fchildRel d) ch ∧ ch.Nodup) by
        exact hfold (filteredChildren d n) (fun c hc => hc) chains
          (fun ch hch => Or.inl hch) h
      intro cs
      induction cs with
      | nil =>
        intro _ chs hchs hfold
        simp only [List.foldl_nil, Option.some.injEq] at hfold
        rw [← hfold]
        exact hchs
      | cons c cs ihcs =>
        intro hsub chs hchs hfold
        rw [List.foldl_cons] at hfold
        cases hg : genchainsF d f (chs ++ [chain ++ [c]]) with
        | none =>
          rw [show genStep (genchainsF d f) chain (some chs) c = none by
            simp [genStep, hg]] at hfold
          rw [fold_none] at hfold
          exact absurd hfold (by simp)
        | some mid =>
          rw [show genStep (genchainsF d f) chain (some chs) c = some mid by
            simp [genStep, hg]] at hfold
          have hrelc : fchildRel d n c := hsub c (List.mem_cons_self c cs)
          have hwalk2 : List.Chain' (fchildRel d) (chain ++ [c]) := by
            apply List.Chain'.append hwalk (List.chain'_singleton c)
            intro x hx y hy
            rw [hcl] at hx
            have hx' : x = n := (by simpa using hx : n = x).symm
            have hy' : y = c := (by simpa using hy : c = y).symm
            rw [hx', hy']
            exact hrelc
          have hcnot : c ∉ chain := by
            intro hmem
            obtain ⟨u, v, huv⟩ := List.append_of_mem hmem
            have hsuffix : List.Chain' (fchildRel d) (c :: v) := by
              rw [huv] at hwalk
              exact hwalk.right_of_append
            have hclast : (c :: v).getLast? = some n := by
              rw [huv, List.getLast?_append] at hcl
              cases hcv : (c :: v).getLast? with
              | none => simp at hcv
              | some z =>
                rw [hcv] at hcl
                simpa using hcl
            have hcyc : List.Chain' (fchildRel d) (c :: (v ++ [c])) := by
              have hrw : c :: (v ++ [c]) = (c :: v) ++ [c] := by simp
              rw [hrw]
              apply List.Chain'.append hsuffix (List.chain'_singleton c)
              intro x hx y hy
              rw [hclast] at hx
              have hx' : x = n := (by simpa using hx : n = x).symm
              have hy' : y = c := (by simpa using hy : c = y).symm
              rw [hx', hy']
              exact hrelc
            have hdb := genchainsF_depth_bound d f (chs ++ [chain ++ [c]])
              (chain ++ [c]) c mid hg (List.getLast?_concat _) (List.getLast?_concat _)
            obtain ⟨q, hq, hkq⟩ :=
              cycle_pump (fchildRel d) c (v ++ [c]) hcyc (List.getLast?_concat _) f
            exact absurd (hdb q hq) (by omega)
          have hnd2 : (chain ++ [c]).Nodup := by
            rw [List.nodup_append]
            exact ⟨hnd, List.nodup_singleton c, by simpa using hcnot⟩
          have hmidprop := ihf (chs ++ [chain ++ [c]]) (chain ++ [c]) mid
            (List.getLast?_concat _) hwalk2 hnd2 hg
          apply ihcs (fun c2 hc2 => hsub c2 (List.mem_cons_of_mem c hc2)) mid ?_ hfold
          intro ch hch
          rcases hmidprop ch hch with hin | hgood
          · rcases List.mem_append.mp hin with hin2 | hin3
            · exact hchs ch hin2
            · have hcheq : ch = chain ++ [c] := by simpa using hin3
              rw [hcheq]
              exact Or.inr ⟨hwalk2, hnd2⟩
          · exact Or.inr hgood


theorem brSpecial_miss_1_2 : brSpecial.lookup ((1 : Nuc), (2 : Nuc)) = none := by decide

theorem ka_dW : k_a dW [1, 2] = some ([EF.fin (-1), EF.fin 1], [EF.fin (-1), EF.fin 0]) := by
  norm_num [k_a, kOf, dcOf, aOf, hlOf, dW, endsStable, EF.ltb, ciOf, cijEntry,
    List.range_succ, EF.mul, EF.div, EF.sub, EF.add, EF.neg, EF.isNaN, EF.isInf, EF.eqb,
    gammaOf, branching, brSpecial_miss_1_2, maskOf, maskRaw, List.count_cons, selectMask]

/- Claim theorems. -/

/-- C2 (counterexample): at the concrete chain with decay constants [1, 2]
the solver's coefficients differ from the claimed row products: the code
takes column products (prod over axis 0). -/
theorem coeff_row_product_cx :
    ciOf [EF.fin 1, EF.fin 2] false ≠ ciRowSpec [EF.fin 1, EF.fin 2] false := by
  norm_num [ciOf, ciRowSpec, cijEntry, List.range_succ, List.filter,
    EF.mul, EF.div, EF.sub, EF.add, EF.neg]

/-- C2 (amended): the coefficient list ci computed by the solver assigns to
each index i the product over COLUMN i of the cij matrix (entries cij[j][i]
for j running over the chain), the diagonal excluded; the matrix entries are
dc[j]/(dc[j]-dc[i]) off-diagonal, with the terminal row overridden to
-1/dc[i] for a stable-ending chain and the diagonal defined as 1. -/
theorem coeff_column_product (dc : List EF) (stable : Bool) :
    ciOf dc stable = (List.range dc.length).map (fun i =>
      (((List.range dc.length).filter (fun j => decide (j ≠ i))).map
        (fun j => cijEntry dc stable dc.length j i)).foldl EF.mul (EF.fin 1)) := by
  unfold ciOf
  apply List.map_congr_left
  intro i _
  exact (foldl_mul_filter (List.range dc.length)
    (fun j => cijEntry dc stable dc.length j i) i
    (fun j _ hj => by simp [cijEntry, hj]) (EF.fin 1)).symm

/-- C4: for a nonempty chain, k_a returns the unsolvable sentinel none
exactly when a decay constant is NaN, or a pre-scaling amplitude is
infinite, or the aggregate branch ratio gamma is exactly zero. -/
theorem unsolvable_sentinel_iff (d : Data) (chain : Chain) (hne : chain ≠ []) :
    k_a d chain = none ↔
      ((dcOf d chain).any EF.isNaN = true ∨ (kOf d chain).any EF.isInf = true ∨
        EF.eqb (gammaOf d chain) (EF.fin 0) = true) := by
  have hemp : chain.isEmpty = false := by
    cases chain with
    | nil => exact absurd rfl hne
    | cons a l => rfl
  unfold k_a
  rw [hemp]
  simp only [Bool.false_eq_true, if_false]
  by_cases h1 : (dcOf d chain).any EF.isNaN = true
  · simp [h1]
  · by_cases h2 : (kOf d chain).any EF.isInf = true
    · simp [h1, h2]
    · by_cases h3 : EF.eqb (gammaOf d chain) (EF.fin 0) = true
      · simp [h1, h2, h3]
      · simp [h1, h2, h3]

/-- C4 (witness): the NaN provider at the singleton chain [1]. -/
theorem unsolvable_sentinel_iff_w :
    k_a dNaN [1] = none ↔
      ((dcOf dNaN [1]).any EF.isNaN = true ∨ (kOf dNaN [1]).any EF.isInf = true ∨
        EF.eqb (gammaOf dNaN [1]) (EF.fin 0) = true) :=
  unsolvable_sentinel_iff dNaN [1] (by simp)

/-- Solving succeeds only on a nonempty chain, and the returned pair is the
mask-filtered scaled amplitude array and rate array. -/
theorem k_a_some_elim (d : Data) (chain : Chain) (k a : List EF)
    (hka : k_a d chain = some (k, a)) :
    chain ≠ [] ∧
    k = selectMask ((kOf d chain).map (fun x => EF.mul x (gammaOf d chain)))
          (maskOf d chain) ∧
    a = selectMask (aOf d chain) (maskOf d chain) := by
  have hne : chain ≠ [] := by
    intro h0
    rw [h0] at hka
    simp [k_a] at hka
  refine ⟨hne, ?_⟩
  have hemp : chain.isEmpty = false := by
    cases chain with
    | nil => exact absurd rfl hne
    | cons x l => rfl
  unfold k_a at hka
  rw [hemp] at hka
  simp only [Bool.false_eq_true, if_false] at hka
  by_cases h1 : (dcOf d chain).any EF.isNaN = true
  · rw [if_pos h1] at hka; simp at hka
  rw [if_neg h1] at hka
  by_cases hh2 : (kOf d chain).any EF.isInf = true
  · rw [if_pos hh2] at hka; simp at hka
  rw [if_neg hh2] at hka
  by_cases h3 : EF.eqb (gammaOf d chain) (EF.fin 0) = true
  · rw [if_pos h3] at hka; simp at hka
  rw [if_neg h3] at hka
  rw [Option.some.injEq, Prod.mk.injEq] at hka
  exact ⟨hka.1.symm, hka.2.symm⟩

/-- C5: a solved chain of length at least 2 keeps at least 2 terms (the
full unpruned set is restored when the mask would leave fewer), the two
returned arrays have equal length, and for a stable-ending chain the
terminal term survives pruning: the last amplitude is the forced 1.0 scaled
by gamma and the last rate is the unpruned terminal rate. -/
theorem pruning_keeps_two_terms (d : Data) (chain : Chain) (k a : List EF)
    (h2 : 2 ≤ chain.length) (hka : k_a d chain = some (k, a)) :
    2 ≤ k.length ∧ k.length = a.length ∧
    (endsStable d chain = true →
      k.getLast? = some (EF.mul (EF.fin 1) (gammaOf d chain)) ∧
      a.getLast? = (aOf d chain).getLast?) := by
  obtain ⟨hne, hk, ha⟩ := k_a_some_elim d chain k a hka
  have hmlen : (maskOf d chain).length = chain.length := maskOf_length d chain hne
  have hkglen : ((kOf d chain).map (fun x => EF.mul x (gammaOf d chain))).length
      = chain.length := by simp [kOf_length]
  have halen : (aOf d chain).length = chain.length := aOf_length d chain
  have hklen : k.length = (maskOf d chain).count true := by
    rw [hk]; exact selectMask_length _ _ (by rw [hkglen, hmlen])
  have halen2 : a.length = (maskOf d chain).count true := by
    rw [ha]; exact selectMask_length _ _ (by rw [halen, hmlen])
  have hcount : 2 ≤ (maskOf d chain).count true := by
    unfold maskOf
    by_cases hc : (maskRaw d chain).count true < 2
    · rw [if_pos hc, List.count_replicate_self]
      exact h2
    · rw [if_neg hc]
      omega
  refine ⟨by omega, by omega, fun hs => ?_⟩
  have hmlast := maskOf_getLast_stable d chain hne hs
  constructor
  · rw [hk, selectMask_getLast _ _ (by rw [hkglen, hmlen]) hmlast, List.getLast?_map,
      kOf_getLast_stable d chain hne hs]
    rfl
  · rw [ha]
    exact selectMask_getLast _ _ (by rw [halen, hmlen]) hmlast

/-- C5 (witness): the two-species stable chain of dW. -/
theorem pruning_keeps_two_terms_w :
    2 ≤ ([EF.fin (-1), EF.fin 1] : List EF).length ∧
    ([EF.fin (-1), EF.fin 1] : List EF).length =
      ([EF.fin (-1), EF.fin 0] : List EF).length ∧
    (endsStable dW [1, 2] = true →
      ([EF.fin (-1), EF.fin 1] : List EF).getLast? =
        some (EF.mul (EF.fin 1) (gammaOf dW [1, 2])) ∧
      ([EF.fin (-1), EF.fin 0] : List EF).getLast? = (aOf dW [1, 2]).getLast?) :=
  pruning_keeps_two_terms dW [1, 2] _ _ (by norm_num) ka_dW

theorem ka_dC3 :
    k_a dC3 [1, 2] = some ([EF.fin (-2), EF.fin 2], [EF.fin (-1), EF.fin (-1/2)]) := by
  norm_num [k_a, kOf, dcOf, aOf, hlOf, dC3, endsStable, EF.ltb, ciOf, cijEntry,
    List.range_succ, EF.mul, EF.div, EF.sub, EF.add, EF.neg, EF.isNaN, EF.isInf, EF.eqb,
    gammaOf, branching, brSpecial_miss_1_2, maskOf, maskRaw, List.count_cons, selectMask]

/-- C3 (counterexample): for the chain [1, 2] of dC3 (half-lives 1 and 2,
decay constants 0.7 and 0.35) the returned rate array is [-1, -1/2], the
negative reciprocal half-lives, which differs from the negated decay
constants [-0.7, -0.35]. -/
theorem rate_array_cx :
    k_a dC3 [1, 2] = some ([EF.fin (-2), EF.fin 2], [EF.fin (-1), EF.fin (-1/2)]) ∧
    ([EF.fin (-1), EF.fin (-1/2)] : List EF) ≠ (dcOf dC3 [1, 2]).map EF.neg :=
  ⟨ka_dC3, by norm_num [dcOf, dC3, EF.neg]⟩

/-- C3 (amended): the rate array returned by the solver is (a mask-selected
sublist of) the negative RECIPROCAL half-lives -1/half_life_i; paired with
the base-2 exponential exp2 of the emitted terms this encodes
e^(-decay_const*t); the two returned arrays have equal length. -/
theorem rate_array_neg_reciprocal_hl (d : Data) (chain : Chain) (k a : List EF)
    (hka : k_a d chain = some (k, a)) :
    List.Sublist a (chain.map (fun m => EF.div (EF.fin (-1)) (d.half_life m))) ∧
    k.length = a.length := by
  obtain ⟨hne, hk, ha⟩ := k_a_some_elim d chain k a hka
  have haOf : aOf d chain = chain.map (fun m => EF.div (EF.fin (-1)) (d.half_life m)) := by
    simp [aOf, hlOf, List.map_map]
  constructor
  · rw [ha, ← haOf]
    exact selectMask_sublist _ _
  · have hmlen : (maskOf d chain).length = chain.length := maskOf_length d chain hne
    have hkglen : ((kOf d chain).map (fun x => EF.mul x (gammaOf d chain))).length
        = chain.length := by simp [kOf_length]
    have halen : (aOf d chain).length = chain.length := aOf_length d chain
    rw [hk, ha, selectMask_length _ _ (by rw [hkglen, hmlen]),
      selectMask_length _ _ (by rw [halen, hmlen])]

/-- C3 (witness): the amended statement evaluated on dC3's chain [1, 2]. -/
theorem rate_array_neg_reciprocal_hl_w :
    List.Sublist ([EF.fin (-1), EF.fin (-1/2)] : List EF)
      (([1, 2] : Chain).map (fun m => EF.div (EF.fin (-1)) (dC3.half_life m))) ∧
    ([EF.fin (-2), EF.fin 2] : List EF).length =
      ([EF.fin (-1), EF.fin (-1/2)] : List EF).length :=
  rate_array_neg_reciprocal_hl dC3 [1, 2] _ _ ka_dC3

/-- C9: for a solved chain of length at least 2, chainexpr emits per
coefficient pair the literal 1.0 for (k, a) = (1, 0), the bare exponential
exp2(a*t) for k == 1, and k*exp2(a*t) otherwise; a length-1 chain gets the
single term exp2((-1/half_life)*t) with no amplitude factor. -/
theorem emission_rules (d : Data) (chain : Chain) (k a : List EF)
    (h2 : 2 ≤ chain.length) (hka : k_a d chain = some (k, a)) :
    chainexpr d chain = some ((k.zip a).map (fun p =>
      if EF.eqb p.1 (EF.fin 1) && EF.eqb p.2 (EF.fin 0) then CTerm.one
      else if EF.eqb p.1 (EF.fin 1) then CTerm.expT p.2
      else CTerm.kexpT p.1 p.2)) ∧
    ∀ m : Nuc, chainexpr d [m] =
      some [CTerm.expT (EF.div (EF.fin (-1)) (d.half_life m))] := by
  constructor
  · have hne : chain ≠ [] := by
      intro h0
      rw [h0] at h2
      simp at h2
    obtain ⟨child, hchild⟩ : ∃ c, chain.getLast? = some c := by
      cases hc : chain.getLast? with
      | none => exact absurd (List.getLast?_eq_none_iff.mp hc) hne
      | some c => exact ⟨c, rfl⟩
    have hlen1 : ¬ chain.length = 1 := by omega
    simp [chainexpr, hchild, hlen1, hka, kexpexpr]
  · intro m
    simp [chainexpr]

/-- C9 (witness): the dW chain [1, 2] yields the term list
[(-1)*exp2((-1)*t), 1.0]. -/
theorem emission_rules_w :
    chainexpr dW [1, 2] =
      some [CTerm.kexpT (EF.fin (-1)) (EF.fin (-1)), CTerm.one] := by
  have h := (emission_rules dW [1, 2] _ _ (by norm_num) ka_dW).1
  rw [h]
  norm_num [EF.eqb]

/-- C8: the data-correction layer returns the override value for any key in
the override tables, regardless of the provider, and delegates to the
provider unchanged on every other input. -/
theorem override_table_wins (d : Data) (x y : Nuc) :
    (∀ v, brSpecial.lookup (x, y) = some v → branching d x y = v) ∧
    (brSpecial.lookup (x, y) = none → branching d x y = d.branching0 x y) ∧
    (∀ s, childSpecial.lookup x = some s → decay_children d x = s) ∧
    (childSpecial.lookup x = none → decay_children d x = d.children0 x) := by
  refine ⟨fun v hv => ?_, fun hv => ?_, fun s hs => ?_, fun hs => ?_⟩
  · unfold branching; rw [hv]
  · unfold branching; rw [hv]
  · unfold decay_children; rw [hs]
  · unfold decay_children; rw [hs]

/-- C8 (witness): against the sentinel provider, the overridden pair
(451040000, 461040000) and the overridden parent 451040000 return the
table values, not the sentinel. -/
theorem override_table_wins_w :
    branching dSent 451040000 461040000 = EF.fin 0.9955 ∧
    decay_children dSent 451040000 = [441040000, 461040000] :=
  ⟨(override_table_wins dSent 451040000 461040000).1 (EF.fin 0.9955) rfl,
   (override_table_wins dSent 451040000 461040000).2.2.1 [441040000, 461040000] rfl⟩

/-- C1: for a two-nuclide chain of a decaying parent (half-life h > 0,
decay constant lam > 0) and a stable daughter (infinite half-life, decay
constant 0) with branch ratio g > 0, the solver returns amplitudes
[-g, g] and rates [-1/h, 0] (so the daughter accumulation is
g*(1 - exp2(-t/h)) = g*(1 - e^(-lam*t)) under lam = ln2/h), and the
synthesized terms are exp2((-1/h)*t) for the parent's own chain and
[-g*exp2((-1/h)*t), g or 1.0] for the daughter chain. -/
theorem two_species_chain_correct (d : Data) (p c : Nuc) (h lam g : ℚ)
    (hhp : d.half_life p = EF.fin h) (hh : 0 < h)
    (hhc : d.half_life c = EF.pinf)
    (hdp : d.decay_const p = EF.fin lam) (hlam : 0 < lam)
    (hdc : d.decay_const c = EF.fin 0)
    (hbr : branching d p c = EF.fin g) (hg : 0 < g) :
    k_a d [p, c] = some ([EF.fin (-g), EF.fin g], [EF.fin (-1 / h), EF.fin 0]) ∧
    chainexpr d [p] = some [CTerm.expT (EF.fin (-1 / h))] ∧
    chainexpr d [p, c] =
      some [CTerm.kexpT (EF.fin (-g)) (EF.fin (-1 / h)),
            if g = 1 then CTerm.one else CTerm.kexpT (EF.fin g) (EF.fin 0)] := by
  have hlam' : lam ≠ 0 := ne_of_gt hlam
  have hh' : h ≠ 0 := ne_of_gt hh
  have hg' : g ≠ 0 := ne_of_gt hg
  have hdcOf : dcOf d [p, c] = [EF.fin lam, EF.fin 0] := by simp [dcOf, hdp, hdc]
  have hstable : endsStable d [p, c] = true := by
    norm_num [endsStable, hdcOf, EF.ltb]
  have hci : ciOf [EF.fin lam, EF.fin 0] true = [EF.fin (-1 / lam), EF.fin 1] := by
    norm_num [ciOf, cijEntry, List.range_succ, EF.mul, EF.div, EF.sub, EF.add, EF.neg,
      hlam']
  have hkOf : kOf d [p, c] = [EF.fin (-1), EF.fin 1] := by
    norm_num [kOf, hdcOf, hstable, hci, EF.mul]
    field_simp
  have hgam : gammaOf d [p, c] = EF.fin g := by
    norm_num [gammaOf, hbr, EF.mul]
  have hmask : maskOf d [p, c] = [true, true] := by
    norm_num [maskOf, maskRaw, hstable, hlOf, hhp, hhc, EF.ltb, EF.div, EF.add, hh',
      List.count_cons]
  have haOf : aOf d [p, c] = [EF.fin (-1 / h), EF.fin 0] := by
    norm_num [aOf, hlOf, hhp, hhc, EF.div, hh']
  have hka : k_a d [p, c] = some ([EF.fin (-g), EF.fin g], [EF.fin (-1 / h), EF.fin 0]) := by
    norm_num [k_a, hdcOf, hkOf, hgam, hmask, haOf, EF.isNaN, EF.isInf, EF.eqb, hg',
      selectMask, EF.mul]
  have hg1 : ¬(-g = 1) := by nlinarith
  have hna : ¬(-1 / h = 0) := by
    simp [div_eq_zero_iff, hh']
  refine ⟨hka, ?_, ?_⟩
  · norm_num [chainexpr, hhp, EF.div, hh']
  · by_cases hcg : g = 1
    · subst hcg
      norm_num [chainexpr, hka, kexpexpr, EF.eqb, hg1, hna]
    · norm_num [chainexpr, hka, kexpexpr, EF.eqb, hg1, hna, hcg]

theorem dCyc_none : ∀ (f : Nat) (chains : List Chain) (chain : Chain) (n : Nuc),
    chains.getLast? = some chain → chain.getLast? = some n → (n = 1 ∨ n = 2) →
    genchainsF dCyc f chains = none := by
  intro f
  induction f with
  | zero => intro _ _ _ _ _ _; exact genchainsF_zero dCyc _
  | succ f ihf =>
    intro chains chain n hlast hcl hn
    rw [genchainsF_succ_eq dCyc f chains chain n hlast hcl]
    rcases hn with rfl | rfl
    · have hch : filteredChildren dCyc 1 = [2] := by decide
      rw [hch]
      simp only [List.foldl_cons, List.foldl_nil]
      have hnone : genchainsF dCyc f (chains ++ [chain ++ [2]]) = none :=
        ihf (chains ++ [chain ++ [2]]) (chain ++ [2]) 2 (List.getLast?_concat _)
          (List.getLast?_concat _) (Or.inr rfl)
      simp [genStep, hnone]
    · have hch : filteredChildren dCyc 2 = [1] := by decide
      rw [hch]
      simp only [List.foldl_cons, List.foldl_nil]
      have hnone : genchainsF dCyc f (chains ++ [chain ++ [1]]) = none :=
        ihf (chains ++ [chain ++ [1]]) (chain ++ [1]) 1 (List.getLast?_concat _)
          (List.getLast?_concat _) (Or.inl rfl)
      simp [genStep, hnone]

theorem fold_grow (d : Data) (f : Nat) (chain : Chain) :
    ∀ (cs : List Nuc) (chs out : List Chain),
      cs.foldl (genStep (genchainsF d f) chain) (some chs) = some out →
      chs.length ≤ out.length := by
  intro cs
  induction cs with
  | nil =>
    intro chs out h
    simp only [List.foldl_nil, Option.some.injEq] at h
    rw [h]
  | cons c cs ih =>
    intro chs out h
    rw [List.foldl_cons] at h
    cases hg : genchainsF d f (chs ++ [chain ++ [c]]) with
    | none =>
      rw [show genStep (genchainsF d f) chain (some chs) c = none by
        simp [genStep, hg]] at h
      rw [fold_none] at h
      exact absurd h (by simp)
    | some mid =>
      rw [show genStep (genchainsF d f) chain (some chs) c = some mid by
        simp [genStep, hg]] at h
      have h1 := ih mid out h
      obtain ⟨news, hmid, _⟩ := genchainsF_shape d f (chs ++ [chain ++ [c]])
        (chain ++ [c]) mid (List.getLast?_concat _) hg
      rw [hmid] at h1
      simp only [List.length_append, List.length_cons, List.length_nil] at h1
      omega

/-- C6: on any successful enumeration from a seed, every produced chain is
free of repeated nuclides. -/
theorem genchains_chains_nodup (d : Data) (f : Nat) (seed : Nuc) (out : List Chain)
    (h : genchainsF d f [[seed]] = some out) : ∀ ch ∈ out, ch.Nodup := by
  intro ch hch
  rcases genchainsF_nodup_aux d f [[seed]] [seed] out rfl
      (List.chain'_singleton seed) (List.nodup_singleton seed) h ch hch with hin | hgood
  · have hcheq : ch = [seed] := by simpa using hin
    rw [hcheq]
    exact List.nodup_singleton seed
  · exact hgood.2

/-- C6 (witness): dW's enumeration from seed 1 produces [1, 2], which has
no repeats. -/
theorem genchains_chains_nodup_w : ([1, 2] : Chain).Nodup :=
  genchains_chains_nodup dW 3 1 [[1], [1, 2]] (by decide) [1, 2] (by simp)

/-- C7 (counterexample): with the cyclic provider dCyc the enumeration from
seed 1 never returns, for any amount of fuel: the claim that the recursion
terminates for every seed (over any interface-conforming provider) fails. -/
theorem genchains_cycle_diverges :
    ¬ ∃ (f : Nat) (out : List Chain), genchainsF dCyc f [[1]] = some out := by
  rintro ⟨f, out, h⟩
  rw [dCyc_none f [[1]] [1] 1 rfl rfl (Or.inl rfl)] at h
  exact absurd h (by simp)

/-- C7 (amended): the enumeration from a seed terminates (for some fuel)
exactly when the filtered-graph paths from the seed are bounded in length;
and one expansion step returns its input unchanged exactly when the
terminal nuclide's filtered daughter set is empty. -/
theorem genchains_termination_iff (d : Data) (n : Nuc) :
    ((∃ f out, genchainsF d f [[n]] = some out) ↔
      (∃ B, ∀ p, List.Chain' (fchildRel d) (n :: p) → p.length < B)) ∧
    (∀ (f : Nat) (chains : List Chain) (chain : Chain) (m : Nuc),
      chains.getLast? = some chain → chain.getLast? = some m →
      (genchainsF d (f + 1) chains = some chains ↔ filteredChildren d m = [])) := by
  constructor
  · constructor
    · rintro ⟨f, out, h⟩
      exact ⟨f, genchainsF_depth_bound d f [[n]] [n] n out h rfl rfl⟩
    · rintro ⟨B, hB⟩
      obtain ⟨out, hout⟩ := genchainsF_total d B [[n]] [n] n rfl rfl hB
      exact ⟨B, out, hout⟩
  · intro f chains chain m hlast hcl
    constructor
    · intro h
      by_contra hne
      obtain ⟨c, cs, hcs⟩ : ∃ c cs, filteredChildren d m = c :: cs := by
        cases hfc : filteredChildren d m with
        | nil => exact absurd hfc hne
        | cons c cs => exact ⟨c, cs, rfl⟩
      rw [genchainsF_succ_eq d f chains chain m hlast hcl, hcs, List.foldl_cons] at h
      cases hg : genchainsF d f (chains ++ [chain ++ [c]]) with
      | none =>
        rw [show genStep (genchainsF d f) chain (some chains) c = none by
          simp [genStep, hg]] at h
        rw [fold_none] at h
        exact absurd h (by simp)
      | some mid =>
        rw [show genStep (genchainsF d f) chain (some chains) c = some mid by
          simp [genStep, hg]] at h
        have h1 := fold_grow d f chain cs mid chains h
        obtain ⟨news, hmid, _⟩ := genchainsF_shape d f (chains ++ [chain ++ [c]])
          (chain ++ [c]) mid (List.getLast?_concat _) hg
        rw [hmid] at h1
        simp only [List.length_append, List.length_cons, List.length_nil] at h1
        omega
    · intro h
      rw [genchainsF_succ_eq d f chains chain m hlast hcl, h]
      rfl

/-- C7 (witness): one expansion step from the childless nuclide 2 of dW
returns its input unchanged. -/
theorem genchains_termination_iff_w :
    genchainsF dW 1 [[2]] = some [[2]] ↔ filteredChildren dW 2 = [] :=
  (genchains_termination_iff dW 2).2 0 [[2]] [2] 2 rfl rfl

/-- C10: a successful run keeps every input chain in the output, and every
newly added chain properly extends the last input chain (in particular the
enumeration from a seed keeps the singleton seed chain). -/
theorem genchains_keeps_input (d : Data) (f : Nat) (chains : List Chain)
    (chain : Chain) (out : List Chain) (hlast : chains.getLast? = some chain)
    (h : genchainsF d f chains = some out) :
    (∀ ch ∈ chains, ch ∈ out) ∧
    ∀ ch ∈ out, ch ∈ chains ∨ ∃ e, e ≠ [] ∧ ch = chain ++ e := by
  obtain ⟨news, hout, hnews⟩ := genchainsF_shape d f chains chain out hlast h
  constructor
  · intro ch hch
    rw [hout]
    exact List.mem_append.mpr (Or.inl hch)
  · intro ch hch
    rw [hout] at hch
    rcases List.mem_append.mp hch with h1 | h2
    · exact Or.inl h1
    · exact Or.inr (hnews ch h2)

/-- C10 (witness): in dW's run from seed 1, the new chain [1, 2] properly
extends the last (only) input chain [1]. -/
theorem genchains_keeps_input_w :
    ([1, 2] : Chain) ∈ ([[1]] : List Chain) ∨
      ∃ e, e ≠ [] ∧ ([1, 2] : Chain) = [1] ++ e :=
  (genchains_keeps_input dW 3 [[1]] [1] [[1], [1, 2]] rfl (by decide)).2 [1, 2] (by simp)

/-- C1 (witness): dW's parent 1 (half-life 1, decay constant 0.7) and
stable daughter 2 with branch ratio 1. -/
theorem two_species_chain_correct_w :
    k_a dW [1, 2] =
      some ([EF.fin (-(1 : ℚ)), EF.fin 1], [EF.fin (-1 / 1), EF.fin 0]) ∧
    chainexpr dW [1] = some [CTerm.expT (EF.fin (-1 / 1))] ∧
    chainexpr dW [1, 2] =
      some [CTerm.kexpT (EF.fin (-(1 : ℚ))) (EF.fin (-1 / 1)),
            if (1 : ℚ) = 1 then CTerm.one else CTerm.kexpT (EF.fin 1) (EF.fin 0)] :=
  two_species_chain_correct dW 1 2 1 (7 / 10) 1 rfl (by norm_num) rfl rfl (by norm_num)
    rfl (by simp [branching, brSpecial_miss_1_2, dW]) (by norm_num)

end DecayGen
